import Mathlib

/-!
# Verification of the Steam-Review-Guesser selection / seen-state core

Shallow embedding of `src/nextGame.js` and `src/utils.js`.

Strings are modelled as Lean `String` / `List Char`; JavaScript numbers that
hold identifiers or epoch-millisecond timestamps are modelled as `Int`
(`null`/`undefined`/`NaN` become `Option`-`none` where the code distinguishes
them).  Randomness (`Math.random()`) is modelled by explicit numeric
parameters; the index `Math.floor(Math.random() * n)` — an arbitrary value in
`[0, n)` — is modelled as `rand % n`.
-/

/-- Model of the whitespace class removed by JavaScript `String.prototype.trim`
(space, tab, line and page separators, NBSP, BOM). -/
def wsChar (c : Char) : Bool :=
  c == ' ' || c == '\t' || c == '\n' || c == '\r' || c == '\u000B' ||
  c == '\u000C' || c == '\u00A0' || c == '\uFEFF'

/-- Decimal-digit test, as used by `parseInt`'s digit scan. -/
def isDigitChar (c : Char) : Bool :=
  decide (48 ≤ c.toNat) && decide (c.toNat ≤ 57)

/-- The decimal digit characters, as produced by JavaScript number-to-string
conversion. -/
def digitChar (d : Nat) : Char :=
  match d with
  | 0 => '0' | 1 => '1' | 2 => '2' | 3 => '3' | 4 => '4'
  | 5 => '5' | 6 => '6' | 7 => '7' | 8 => '8' | _ => '9'

/-- Model of `String.prototype.trim` on the character list: drop the
whitespace class from both ends. -/
def trimL (l : List Char) : List Char :=
  (((l.dropWhile wsChar).reverse).dropWhile wsChar).reverse

/-- Model of `String.prototype.split` with a one-character separator:
`"".split(c) = [""]`, separators at the ends produce empty pieces, exactly as
in JavaScript. -/
def splitChar (c : Char) : List Char → List (List Char)
  | [] => [[]]
  | x :: l =>
    let r := splitChar c l
    if x = c then [] :: r else (x :: r.headD []) :: r.tail

/-- Model of `Array.prototype.join` with a one-character separator (used by
`lines.join("\n")`). -/
def joinSep (c : Char) : List (List Char) → List Char
  | [] => []
  | [x] => x
  | x :: y :: rest => x ++ c :: joinSep c (y :: rest)

/-- Value of a most-significant-first decimal digit string (the accumulation
`parseInt` performs over the scanned digits). -/
def digitsVal (l : List Char) : Nat :=
  l.foldl (fun a c => 10 * a + (c.toNat - 48)) 0

/-- Little-endian decimal digit characters of `n`; `fuel` bounds the
recursion depth (`n` itself always suffices). -/
def digitsRev (fuel n : Nat) : List Char :=
  match fuel with
  | 0 => []
  | fuel + 1 => if n = 0 then [] else digitChar (n % 10) :: digitsRev fuel (n / 10)

/-- Decimal rendering of a natural number, as JavaScript number-to-string
conversion produces for a non-negative integral number. -/
def natChars (n : Nat) : List Char :=
  if n = 0 then ['0'] else (digitsRev n n).reverse

/-- Decimal rendering of an integral JavaScript number (template literal
`${n}` with an integral `n`). -/
def intToChars (i : Int) : List Char :=
  if i < 0 then '-' :: natChars i.natAbs else natChars i.toNat

/-- Digit-prefix scan of `parseInt(·, 10)`: longest leading run of decimal
digits; `NaN` (here `none`) when there is none. -/
def parseDigitPrefix (l : List Char) : Option Nat :=
  let ds := l.takeWhile isDigitChar
  if ds.isEmpty then none else some (digitsVal ds)

/-- Sign handling of `parseInt(·, 10)` after leading whitespace is gone. -/
def jsParseIntCore : List Char → Option Int
  | [] => none
  | c :: rest =>
    if c = '-' then (parseDigitPrefix rest).map (fun n => -(n : Int))
    else if c = '+' then (parseDigitPrefix rest).map (fun n => (n : Int))
    else (parseDigitPrefix (c :: rest)).map (fun n => (n : Int))

/-- Model of `parseInt(s, 10)`: skip leading whitespace, optional sign, then
the longest decimal-digit prefix; `none` models `NaN`. -/
def jsParseIntL (l : List Char) : Option Int :=
  jsParseIntCore (l.dropWhile wsChar)

/-- Does `l` start with `p`? (model of `String.prototype.startsWith`). -/
def startsWithL : List Char → List Char → Bool
  | _, [] => true
  | [], _ :: _ => false
  | c :: cs, d :: ds => c = d && startsWithL cs ds

/-- Does `hay` contain `sub` as a contiguous substring? (model of
`String.prototype.includes`). -/
def containsSub : List Char → List Char → Bool
  | [], sub => sub.isEmpty
  | c :: cs, sub => startsWithL (c :: cs) sub || containsSub cs sub

/-- Model of `String.prototype.toLowerCase` on the ASCII text the code
lowercases. -/
def lowerL (l : List Char) : List Char :=
  l.map Char.toLower

/-- Model of the platform primitive `Date.prototype.toISOString` (not
repository code): it renders an epoch-millisecond value as a canonical
date-time string.  The codec under verification treats that string as an
opaque token, using only that it is non-empty, contains no comma, line break
or whitespace, and that `Date.parse` recovers the exact millisecond value; we
model the canonical string by a framed decimal rendering of the millisecond
count, which has exactly those properties. -/
def isoChars (t : Int) : List Char :=
  'T' :: intToChars t ++ ['Z']

/-- Model of the platform primitive `Date.parse` (not repository code) on the
strings relevant here: it recovers the epoch-millisecond value from the
canonical rendering `isoChars` and is `none` (models `NaN`) on text that is
not a date-time string. -/
def dateParseL (l : List Char) : Option Int :=
  match l with
  | [] => none
  | c :: rest =>
    if c = 'T' then
      match rest.reverse with
      | [] => none
      | d :: mid => if d = 'Z' then jsParseIntL mid.reverse else none
    else none

/-!
## Data model (`src/utils.js`, `src/nextGame.js`)

A stored record `{appId, correct, timestamp}`: `correct : Option Bool` models
the JavaScript `true`/`false`/`null` outcome (`none` = `null` = Unknown);
`timestamp : Option Int` models an epoch-millisecond number or
`null`/`undefined` (`none` = absent).
-/

structure SeenEntry where
  appId : Int
  correct : Option Bool
  timestamp : Option Int
  deriving DecidableEq, Repr

/-- The seen-games `Map` keyed by `appId`, modelled as its entry list in
insertion order (keys unique in every state the code builds). -/
abbrev SeenState := List SeenEntry

/-- Model of `Map.prototype.get` on the appId-keyed map. -/
def mapLookup (st : SeenState) (id : Int) : Option SeenEntry :=
  st.find? (fun e => e.appId = id)

/-- Model of `Map.prototype.has`. -/
def mapHas (st : SeenState) (id : Int) : Bool :=
  (mapLookup st id).isSome

/-- Model of `Map.prototype.set`: replace in place when the key exists,
append otherwise. -/
def mapSet (st : SeenState) (id : Int) (e : SeenEntry) : SeenState :=
  if st.any (fun x => x.appId = id) then
    st.map (fun x => if x.appId = id then e else x)
  else st ++ [e]

/-!
## Seen-games storage (`src/utils.js`)
-/

/-- One element of the persisted JSON array: a bare number (legacy shape), an
object (whose `appId` is `none` when missing or not a finite number), or any
other JSON value. -/
inductive BlobItem where
  | num (n : Int)
  | obj (appId : Option Int) (correct : Option Bool)
  | other
  deriving DecidableEq, Repr

/-- One iteration of the decoding loop in `getSeenGamesData`: a bare number
becomes `{appId, correct: null}`; an object with a finite `appId` keeps its
`correct` field; anything else is ignored.  Note the code rebuilds the record
from `appId`/`correct` only, so a persisted `timestamp` is dropped on read. -/
def seenStep (m : SeenState) (item : BlobItem) : SeenState :=
  match item with
  | .num n => mapSet m n ⟨n, none, none⟩
  | .obj (some a) c => mapSet m a ⟨a, c, none⟩
  | .obj none _ => m
  | .other => m

/-- Model of `getSeenGamesData`: `blob = none` models both an absent/empty
stored value and a `JSON.parse` failure (the `catch` branch); both return the
empty map without raising. -/
def getSeenGamesData (blob : Option (List BlobItem)) : SeenState :=
  match blob with
  | none => []
  | some arr => arr.foldl seenStep []

/-- Boolean coercion `Boolean(x)` on the outcome argument of
`markGameAsSeen`, whose callers pass `true`, `false`, or nothing
(`undefined`, modelled `none`). -/
def boolCoerce (c : Option Bool) : Bool :=
  c.getD false

/-- Model of `markGameAsSeen`: `appId = none` models a non-finite
`Number(appId)` (the early return); otherwise the record
`{appId: id, correct: Boolean(correct)}` — with no timestamp field — is
written over whatever the store held for `id`. -/
def markGameAsSeen (st : SeenState) (appId : Option Int) (correct : Option Bool) :
    SeenState :=
  match appId with
  | none => st
  | some id => mapSet st id ⟨id, some (boolCoerce correct), none⟩

/-!
## CSV loading and caching (`src/nextGame.js`, lines 13–72)
-/

/-- The batch partitions used by "Smart Random". -/
def BATCH_FILES : List String :=
  ["data/Batch_1.csv", "data/Batch_2.csv", "data/Batch_3.csv",
   "data/Batch_4.csv", "data/Batch_5.csv", "data/Batch_6.csv"]

/-- The full-catalog partition used by "Pure Random". -/
def releasedPath : String := "data/released_appids.csv"

/-- State of the module-level `CSV_CACHE`: which promise (identified by a
number) each path maps to, a counter to mint fresh promise identities, and
how many times `fetch` has been invoked.  JavaScript runs the body of
`loadCsvIds` synchronously: the cache entry is installed before control is
ever yielded, so a state transition models one call. -/
structure LoadState where
  cache : List (String × Nat)
  nextPromise : Nat
  fetchCount : Nat
  deriving DecidableEq, Repr

/-- First-match lookup in the plain-object cache (`CSV_CACHE[relativePath]`). -/
def cacheLookup : List (String × Nat) → String → Option Nat
  | [], _ => none
  | (k, v) :: t, a => if k = a then some v else cacheLookup t a

/-- Model of `loadCsvIds`: return the cached promise when the path is cached;
otherwise start one fetch, cache its promise, and return it. -/
def loadCsvIds (s : LoadState) (path : String) : LoadState × Nat :=
  match cacheLookup s.cache path with
  | some p => (s, p)
  | none =>
    ({ cache := s.cache ++ [(path, s.nextPromise)],
       nextPromise := s.nextPromise + 1,
       fetchCount := s.fetchCount + 1 }, s.nextPromise)

/-!
## Selection strategies (`src/nextGame.js`, lines 81–157)

The resolved contents of the partitions are a parameter
`load : String → List Int` (the value each `loadCsvIds` promise resolves to),
the seen set is a parameter `seen : Int → Bool` (the `Set` built by
`getSeenGames`), and each `Math.random()` draw is an explicit parameter.
-/

/-- Model of `pickRandomId`: `none` for a null/empty list, filter out seen
ids, `null` on exhaustion, else the element at index
`Math.floor(Math.random() * unseenIds.length)` (an arbitrary index in range,
modelled `rand % unseenIds.length`). -/
def pickRandomId (ids : List Int) (seen : Int → Bool) (rand : Nat) : Option Int :=
  if ids.isEmpty then none
  else
    let unseenIds := ids.filter (fun id => !seen id)
    if unseenIds.isEmpty then none
    else unseenIds.get? (rand % unseenIds.length)

/-- Model of `getPureRandomAppId`: pick from the full released-appids
partition. -/
def getPureRandomAppId (load : String → List Int) (seen : Int → Bool)
    (rand : Nat) : Option Int :=
  pickRandomId (load releasedPath) seen rand

/-- The `for (const file of shuffledBatches)` loop of `getSmartRandomAppId`:
return the first non-null pick, else fall back to Pure Random. -/
def smartGo (load : String → List Int) (seen : Int → Bool)
    (randB : String → Nat) (randP : Nat) : List String → Option Int
  | [] => getPureRandomAppId load seen randP
  | f :: rest =>
    match pickRandomId (load f) seen (randB f) with
    | some id => some id
    | none => smartGo load seen randB randP rest

/-- Model of `getSmartRandomAppId`.  `shuffled` is the result of
`[...BATCH_FILES].sort(() => Math.random() - 0.5)` — some permutation of
`BATCH_FILES` (an inconsistent comparator still always produces a
permutation); theorems take that as the hypothesis `shuffled.Perm
BATCH_FILES`. -/
def getSmartRandomAppId (load : String → List Int) (seen : Int → Bool)
    (randB : String → Nat) (randP : Nat) (shuffled : List String) : Option Int :=
  if BATCH_FILES.isEmpty then getPureRandomAppId load seen randP
  else smartGo load seen randB randP shuffled

/-- Model of `navigateToRandomApp`, up to the identifier handed to the
navigation collaborator: run the strategy selected by `mode`, then
`if (!appid) appid = 570` — the falsy values a strategy can produce are
`null` (exhaustion) and the number `0`. -/
def navigateTarget (mode : String) (load : String → List Int)
    (seen : Int → Bool) (randB : String → Nat) (randP : Nat)
    (shuffled : List String) : Int :=
  let appid :=
    if mode = "smart" then getSmartRandomAppId load seen randB randP shuffled
    else getPureRandomAppId load seen randP
  match appid with
  | none => 570
  | some a => if a = 0 then 570 else a

/-!
## Seen-state codec (`src/nextGame.js`, lines 292–320 and 383–472)
-/

/-- The outcome column of one export line:
`entry.correct === true ? "1" : entry.correct === false ? "0" : "?"`. -/
def correctChars (c : Option Bool) : List Char :=
  match c with
  | some true => ['1']
  | some false => ['0']
  | none => ['?']

/-- The timestamp column of one export line:
`entry.timestamp ? new Date(entry.timestamp).toISOString() : ""` — the number
`0` is falsy, so a 0-millisecond timestamp renders as the empty field. -/
def tsChars : Option Int → List Char
  | none => []
  | some t => if t = 0 then [] else isoChars t

/-- One data line of the export: `${entry.appId},${correctStr},${timestampStr}`. -/
def entryLine (e : SeenEntry) : List Char :=
  intToChars e.appId ++ (',' :: (correctChars e.correct ++ (',' :: tsChars e.timestamp)))

/-- The export header line `"appId,correct,timestamp"`. -/
def headerChars : List Char := "appId,correct,timestamp".data

/-- Model of `exportSeenGames`: sort the store's entries by ascending
`appId`, alert-and-return (`none`) when there are none, else join the header
line and one line per entry with `"\n"` (no trailing newline). -/
def exportSeenGames (st : SeenState) : Option String :=
  let entries := List.insertionSort (fun a b => a.appId ≤ b.appId) st
  if entries.isEmpty then none
  else some ⟨joinSep '\n' (headerChars :: entries.map entryLine)⟩

/-- Lines 443–453 of `importSeenGames`, the merge of one decoded record:
an already-present identifier leaves the store untouched and counts as
skipped; a new identifier is appended as-is and counts as imported. -/
def mergeStep (acc : SeenState × Nat × Nat) (r : SeenEntry) :
    SeenState × Nat × Nat :=
  if mapHas acc.1 r.appId then (acc.1, acc.2.1, acc.2.2 + 1)
  else (acc.1 ++ [r], acc.2.1 + 1, acc.2.2)

/-- The merge loop of `importSeenGames` restricted to already-decoded
records: fold `mergeStep` over them, starting from the existing store with
both counters at zero. -/
def mergeInto (st : SeenState) (rs : List SeenEntry) : SeenState × Nat × Nat :=
  rs.foldl mergeStep (st, 0, 0)

/-- One iteration of the `for (const line of dataLines)` loop of
`importSeenGames`: split on commas; drop the line (counting it skipped) when
the first field does not `parseInt` to a finite positive number; otherwise
decode the outcome (`"1"`/`"0"`, else `null`) and the timestamp (parse when
present and non-empty, unparsable treated as absent), then merge the decoded
record. -/
def processLine (acc : SeenState × Nat × Nat) (line : List Char) :
    SeenState × Nat × Nat :=
  let parts := splitChar ',' line
  if parts.length = 0 then acc
  else
    match jsParseIntL (trimL (parts.headD [])) with
    | none => (acc.1, acc.2.1, acc.2.2 + 1)
    | some appId =>
      if appId ≤ 0 then (acc.1, acc.2.1, acc.2.2 + 1)
      else
        let correct : Option Bool :=
          if 1 < parts.length then
            let cs := trimL (parts.getD 1 [])
            if cs = ['1'] then some true
            else if cs = ['0'] then some false
            else none
          else none
        let timestamp : Option Int :=
          if 2 < parts.length then
            let ts := trimL (parts.getD 2 [])
            if ts.isEmpty then none else dateParseL ts
          else none
        mergeStep acc ⟨appId, correct, timestamp⟩

/-- The decode part of one line of `processLine` in isolation: `none` when
the first comma-separated field does not `parseInt` to a positive number,
else the decoded record.  (The `parts.length === 0` branch of the source is
unreachable — a split is never empty — so it has no counterpart here; the
bridging lemma discharges it with that fact.) -/
def decodeLine (line : List Char) : Option SeenEntry :=
  let parts := splitChar ',' line
  match jsParseIntL (trimL (parts.headD [])) with
  | none => none
  | some appId =>
    if appId ≤ 0 then none
    else
      some ⟨appId,
        (if 1 < parts.length then
          let cs := trimL (parts.getD 1 [])
          if cs = ['1'] then some true
          else if cs = ['0'] then some false
          else none
        else none),
        (if 2 < parts.length then
          let ts := trimL (parts.getD 2 [])
          if ts.isEmpty then none else dateParseL ts
        else none)⟩

/-- A data line whose first field fails to decode as a positive identifier
(the lines the import loop drops and counts as skipped). -/
def badLine (line : List Char) : Bool :=
  (decodeLine line).isNone

/-- Outcome of `importSeenGames`: the two alert-and-return branches for an
empty file and a header-only file, or the merged store with the two
counters. -/
inductive ImportResult where
  | emptyFile
  | headerOnly
  | done (store : SeenState) (importedCount skippedCount : Nat)
  deriving DecidableEq, Repr

/-- Header detection of `importSeenGames`: the lowercased first line contains
`"appid"`, `"correct"` or `"timestamp"`. -/
def hasHeaderLine (l : List Char) : Bool :=
  containsSub (lowerL l) "appid".data || containsSub (lowerL l) "correct".data ||
  containsSub (lowerL l) "timestamp".data

/-- Model of `importSeenGames` after the file has been read: split the text
into trimmed non-empty lines (`split(/\r?\n/)` then `trim` — a `\r` before a
`\n` is removed by the trim), drop a detected header, and fold the line
processor over the data lines starting from the existing store. -/
def importSeenGames (text : String) (existing : SeenState) : ImportResult :=
  let lines := ((splitChar '\n' text.data).map trimL).filter (fun l => !l.isEmpty)
  match lines with
  | [] => .emptyFile
  | first :: rest =>
    let dataLines := if hasHeaderLine first then rest else first :: rest
    match dataLines with
    | [] => .headerOnly
    | _ =>
      let r := dataLines.foldl processLine (existing, 0, 0)
      .done r.1 r.2.1 r.2.2

/-!
## Character and digit lemmas
-/

theorem digitChar_toNat {d : Nat} (h : d < 10) : (digitChar d).toNat = 48 + d := by
  interval_cases d <;> rfl

theorem char_ne_of_toNat {c d : Char} (h : c.toNat ≠ d.toNat) : c ≠ d :=
  fun e => h (by rw [e])

theorem toNat_of_wsChar {c : Char} (h : wsChar c = true) :
    c.toNat = 32 ∨ c.toNat = 9 ∨ c.toNat = 10 ∨ c.toNat = 13 ∨ c.toNat = 11 ∨
    c.toNat = 12 ∨ c.toNat = 160 ∨ c.toNat = 65279 := by
  unfold wsChar at h
  simp only [Bool.or_eq_true, beq_iff_eq] at h
  rcases h with ((((((h | h) | h) | h) | h) | h) | h) | h <;> subst h <;> simp

theorem wsChar_eq_false {c : Char} (h48 : 48 ≤ c.toNat) (h57 : c.toNat ≤ 57) :
    wsChar c = false := by
  cases hw : wsChar c
  · rfl
  · have := toNat_of_wsChar hw
    omega

theorem isDigitChar_eq_true {c : Char} (h48 : 48 ≤ c.toNat) (h57 : c.toNat ≤ 57) :
    isDigitChar c = true := by
  simp [isDigitChar, h48, h57]

theorem toNat_of_isDigitChar {c : Char} (h : isDigitChar c = true) :
    48 ≤ c.toNat ∧ c.toNat ≤ 57 := by
  simpa [isDigitChar] using h

theorem mem_digitsRev {c : Char} :
    ∀ {fuel n : Nat}, c ∈ digitsRev fuel n → 48 ≤ c.toNat ∧ c.toNat ≤ 57
  | 0, _, h => by simp [digitsRev] at h
  | fuel + 1, n, h => by
    rw [digitsRev] at h
    split at h
    · simp at h
    · rcases List.mem_cons.mp h with h | h
      · subst h
        rw [digitChar_toNat (Nat.mod_lt _ (by norm_num))]
        omega
      · exact mem_digitsRev h

theorem mem_natChars {c : Char} {n : Nat} (h : c ∈ natChars n) :
    48 ≤ c.toNat ∧ c.toNat ≤ 57 := by
  unfold natChars at h
  split at h
  · simp at h
    subst h
    exact ⟨le_refl _, by decide⟩
  · exact mem_digitsRev (List.mem_reverse.mp h)

theorem natChars_ne_nil (n : Nat) : natChars n ≠ [] := by
  unfold natChars
  split
  · simp
  · obtain ⟨m, rfl⟩ := Nat.exists_eq_succ_of_ne_zero ‹n ≠ 0›
    rw [digitsRev]
    simp

theorem digitsVal_append_digit (a : List Char) (c : Char) :
    digitsVal (a ++ [c]) = 10 * digitsVal a + (c.toNat - 48) := by
  unfold digitsVal
  rw [List.foldl_append]
  rfl

theorem digitsVal_digitsRev : ∀ fuel n, n ≤ fuel →
    digitsVal ((digitsRev fuel n).reverse) = n
  | 0, n, h => by
    interval_cases n
    rfl
  | fuel + 1, n, h => by
    rw [digitsRev]
    split
    · subst ‹n = 0›
      rfl
    · rw [List.reverse_cons, digitsVal_append_digit,
        digitsVal_digitsRev fuel (n / 10)
          (by
            have := Nat.div_lt_self (Nat.pos_of_ne_zero ‹n ≠ 0›) (by norm_num : 1 < 10)
            omega),
        digitChar_toNat (Nat.mod_lt _ (by norm_num))]
      omega

theorem digitsVal_natChars (n : Nat) : digitsVal (natChars n) = n := by
  unfold natChars
  split
  · subst ‹n = 0›
    rfl
  · exact digitsVal_digitsRev n n (le_refl n)

theorem takeWhile_all {p : Char → Bool} :
    ∀ {l : List Char}, (∀ c ∈ l, p c = true) → l.takeWhile p = l
  | [], _ => rfl
  | a :: t, h => by
    rw [List.takeWhile_cons, h a (by simp), takeWhile_all (fun c hc => h c (by simp [hc]))]
    rfl

theorem dropWhile_head_false {p : Char → Bool} {l : List Char}
    (h : ∀ c ∈ l, p c = false) : l.dropWhile p = l := by
  cases l with
  | nil => rfl
  | cons a t =>
    rw [List.dropWhile_cons, h a (by simp)]
    rfl

theorem trimL_eq_self {l : List Char} (h : ∀ c ∈ l, wsChar c = false) :
    trimL l = l := by
  unfold trimL
  rw [dropWhile_head_false h,
    dropWhile_head_false (fun c hc => h c (List.mem_reverse.mp hc)),
    List.reverse_reverse]

theorem parseDigitPrefix_natChars (n : Nat) : parseDigitPrefix (natChars n) = some n := by
  unfold parseDigitPrefix
  rw [takeWhile_all
    (fun c hc => isDigitChar_eq_true (mem_natChars hc).1 (mem_natChars hc).2)]
  rw [if_neg (by simpa using natChars_ne_nil n), digitsVal_natChars]

theorem natChars_head_digit {n : Nat} {c : Char} {t : List Char}
    (h : natChars n = c :: t) : 48 ≤ c.toNat ∧ c.toNat ≤ 57 :=
  mem_natChars (h ▸ List.mem_cons_self c t)

theorem jsParseIntCore_natChars (n : Nat) : jsParseIntCore (natChars n) = some (n : Int) := by
  obtain ⟨c, t, hct⟩ : ∃ c t, natChars n = c :: t := by
    cases h : natChars n with
    | nil => exact absurd h (natChars_ne_nil n)
    | cons c t => exact ⟨c, t, rfl⟩
  have hb := natChars_head_digit hct
  rw [hct, jsParseIntCore,
    if_neg (char_ne_of_toNat (show c.toNat ≠ '-'.toNat by simp; omega)),
    if_neg (char_ne_of_toNat (show c.toNat ≠ '+'.toNat by simp; omega)),
    ← hct, parseDigitPrefix_natChars]
  rfl

theorem natChars_no_ws {n : Nat} {c : Char} (h : c ∈ natChars n) : wsChar c = false :=
  wsChar_eq_false (mem_natChars h).1 (mem_natChars h).2

theorem jsParseIntL_natChars (n : Nat) : jsParseIntL (natChars n) = some (n : Int) := by
  unfold jsParseIntL
  rw [dropWhile_head_false (fun c hc => natChars_no_ws hc), jsParseIntCore_natChars]

theorem jsParseIntL_intToChars (t : Int) : jsParseIntL (intToChars t) = some t := by
  unfold intToChars
  split
  · unfold jsParseIntL
    rw [dropWhile_head_false]
    · rw [jsParseIntCore, if_pos rfl]
      unfold parseDigitPrefix
      rw [takeWhile_all
        (fun c hc => isDigitChar_eq_true (mem_natChars hc).1 (mem_natChars hc).2)]
      rw [if_neg (by simpa using natChars_ne_nil t.natAbs), digitsVal_natChars]
      have habs : ((t.natAbs : Nat) : Int) = -t := by omega
      simp [habs]
    · intro c hc
      rcases List.mem_cons.mp hc with h | h
      · subst h
        rfl
      · exact natChars_no_ws h
  · rw [jsParseIntL_natChars]
    congr 1
    omega

theorem isoChars_ne_nil (t : Int) : isoChars t ≠ [] := by
  simp [isoChars]

theorem dateParseL_isoChars (t : Int) : dateParseL (isoChars t) = some t := by
  have hrev : (intToChars t ++ ['Z']).reverse = 'Z' :: (intToChars t).reverse := by
    rw [List.reverse_append]
    rfl
  simp [isoChars, dateParseL, hrev, jsParseIntL_intToChars t]

/-!
## Split/join lemmas
-/

theorem splitChar_ne_nil (c : Char) : ∀ l : List Char, splitChar c l ≠ []
  | [] => by simp [splitChar]
  | x :: l => by
    rw [splitChar]
    split <;> simp

theorem splitChar_no_sep {c : Char} : ∀ {a : List Char}, c ∉ a → splitChar c a = [a]
  | [], _ => rfl
  | x :: a, h => by
    have hx : ¬ x = c := fun e => h (e ▸ List.mem_cons_self x a)
    rw [splitChar]
    simp only [splitChar_no_sep (fun hc => h (List.mem_cons_of_mem x hc)), if_neg hx]
    rfl

theorem splitChar_sep_cons {c : Char} (b : List Char) :
    ∀ {a : List Char}, c ∉ a → splitChar c (a ++ c :: b) = a :: splitChar c b
  | [], _ => by
    rw [List.nil_append, splitChar, if_pos rfl]
  | x :: a, h => by
    have hx : ¬ x = c := fun e => h (e ▸ List.mem_cons_self x a)
    rw [List.cons_append, splitChar]
    simp only [splitChar_sep_cons b (fun hc => h (List.mem_cons_of_mem x hc)), if_neg hx]
    rfl

theorem splitChar_joinSep (c : Char) :
    ∀ pieces : List (List Char), pieces ≠ [] → (∀ p ∈ pieces, c ∉ p) →
      splitChar c (joinSep c pieces) = pieces
  | [], h, _ => absurd rfl h
  | [x], _, hp => by
    rw [joinSep, splitChar_no_sep (hp x (by simp))]
  | x :: y :: rest, _, hp => by
    rw [joinSep, splitChar_sep_cons _ (hp x (by simp)),
      splitChar_joinSep c (y :: rest) (by simp) (fun p hm => hp p (by simp [hm]))]

/-!
## Character-class facts about the text the export emits
-/

/-- Proof-layer predicate: a character that is neither claimed by the
whitespace trim, nor a comma, nor a line break (`'\n'` is in the whitespace
class, so `!wsChar c` already excludes it). -/
def csvSafe (c : Char) : Bool :=
  !wsChar c && !(c == ',')

theorem not_ws_of_csvSafe {c : Char} (h : csvSafe c = true) : wsChar c = false := by
  simp [csvSafe] at h
  exact h.1

theorem ne_comma_of_csvSafe {c : Char} (h : csvSafe c = true) : c ≠ ',' := by
  simp [csvSafe] at h
  exact h.2

theorem ne_nl_of_csvSafe {c : Char} (h : csvSafe c = true) : c ≠ '\n' := by
  intro e
  subst e
  simp [csvSafe, wsChar] at h

theorem csvSafe_digit {c : Char} (h48 : 48 ≤ c.toNat) (h57 : c.toNat ≤ 57) :
    csvSafe c = true := by
  have hc : (',').toNat = 44 := rfl
  simp [csvSafe, wsChar_eq_false h48 h57]
  exact char_ne_of_toNat (by omega)

theorem csvSafe_intToChars {i : Int} {c : Char} (h : c ∈ intToChars i) :
    csvSafe c = true := by
  unfold intToChars at h
  split at h
  · rcases List.mem_cons.mp h with h | h
    · subst h
      decide
    · exact csvSafe_digit (mem_natChars h).1 (mem_natChars h).2
  · exact csvSafe_digit (mem_natChars h).1 (mem_natChars h).2

theorem csvSafe_correctChars {o : Option Bool} {c : Char} (h : c ∈ correctChars o) :
    csvSafe c = true := by
  rcases o with _ | b
  · simp [correctChars] at h
    subst h
    decide
  · rcases b <;> simp [correctChars] at h <;> subst h <;> decide

theorem csvSafe_tsChars {ts : Option Int} {c : Char} (h : c ∈ tsChars ts) :
    csvSafe c = true := by
  rcases ts with _ | t
  · simp [tsChars] at h
  · rw [tsChars] at h
    by_cases ht : t = 0
    · rw [if_pos ht] at h
      simp at h
    · rw [if_neg ht, isoChars] at h
      rcases List.mem_cons.mp h with h | h
      · subst h
        decide
      · rcases List.mem_append.mp h with h | h
        · exact csvSafe_intToChars h
        · simp at h
          subst h
          decide

theorem not_ws_entryLine {e : SeenEntry} {c : Char} (h : c ∈ entryLine e) :
    wsChar c = false := by
  unfold entryLine at h
  rcases List.mem_append.mp h with h | h
  · exact not_ws_of_csvSafe (csvSafe_intToChars h)
  · rcases List.mem_cons.mp h with h | h
    · subst h
      decide
    · rcases List.mem_append.mp h with h | h
      · exact not_ws_of_csvSafe (csvSafe_correctChars h)
      · rcases List.mem_cons.mp h with h | h
        · subst h
          decide
        · exact not_ws_of_csvSafe (csvSafe_tsChars h)

theorem intToChars_ne_nil (i : Int) : intToChars i ≠ [] := by
  unfold intToChars
  split
  · simp
  · exact natChars_ne_nil _

theorem entryLine_ne_nil (e : SeenEntry) : entryLine e ≠ [] := by
  unfold entryLine
  intro h
  exact intToChars_ne_nil e.appId (List.append_eq_nil.mp h).1

/-!
## Map lemmas
-/

theorem mapLookup_eq_none_iff {st : SeenState} {id : Int} :
    mapLookup st id = none ↔ ∀ e ∈ st, e.appId ≠ id := by
  unfold mapLookup
  rw [List.find?_eq_none]
  simp

theorem mapLookup_eq_some_iff {st : SeenState}
    (hnd : (st.map (fun e => e.appId)).Nodup) {id : Int} {e : SeenEntry} :
    mapLookup st id = some e ↔ e ∈ st ∧ e.appId = id := by
  constructor
  · intro h
    exact ⟨List.mem_of_find?_eq_some h, by simpa using List.find?_some h⟩
  · rintro ⟨hm, he⟩
    induction st with
    | nil => cases hm
    | cons x t ih =>
      by_cases hx : x.appId = id
      · rw [mapLookup, List.find?_cons_of_pos _ (by simpa using hx)]
        rcases List.mem_cons.mp hm with h | h
        · rw [h]
        · exfalso
          rw [List.map_cons, List.nodup_cons] at hnd
          exact hnd.1 (List.mem_map.mpr ⟨e, h, by rw [he, hx]⟩)
      · rw [mapLookup, List.find?_cons_of_neg _ (by simpa using hx)]
        rcases List.mem_cons.mp hm with h | h
        · exact absurd (h ▸ he) hx
        · rw [List.map_cons, List.nodup_cons] at hnd
          exact ih hnd.2 h

theorem mapLookup_eq_of_perm {st₁ st₂ : SeenState} (h : st₁.Perm st₂)
    (hnd : (st₁.map (fun e => e.appId)).Nodup) (id : Int) :
    mapLookup st₁ id = mapLookup st₂ id := by
  have hnd₂ : (st₂.map (fun e => e.appId)).Nodup :=
    ((h.map (fun e => e.appId)).nodup_iff).mp hnd
  cases he : mapLookup st₁ id with
  | some e =>
    have hc := (mapLookup_eq_some_iff hnd).mp he
    exact ((mapLookup_eq_some_iff hnd₂).mpr ⟨h.mem_iff.mp hc.1, hc.2⟩).symm
  | none =>
    symm
    rw [mapLookup_eq_none_iff] at he ⊢
    exact fun e hm => he e (h.mem_iff.mpr hm)

theorem mapLookup_append_single (st : SeenState) (e : SeenEntry) (id : Int) :
    mapLookup (st ++ [e]) id =
      match mapLookup st id with
      | some x => some x
      | none => if e.appId = id then some e else none := by
  induction st with
  | nil =>
    rw [List.nil_append, mapLookup, mapLookup]
    simp only [List.find?_nil, List.find?_cons, List.find?_nil]
    split <;> rename_i hdec
    · rw [if_pos (by simpa using hdec)]
    · rw [if_neg (by simpa using hdec)]
  | cons x t ih =>
    rw [List.cons_append, mapLookup, mapLookup, List.find?_cons, List.find?_cons]
    split
    · rfl
    · exact ih

theorem mapHas_append_single (st : SeenState) (e : SeenEntry) (id : Int) :
    mapHas (st ++ [e]) id = (mapHas st id || decide (e.appId = id)) := by
  unfold mapHas
  rw [mapLookup_append_single]
  cases mapLookup st id with
  | some x => rfl
  | none =>
    by_cases h : e.appId = id
    · simp [h]
    · simp [h]

theorem mapHas_iff_not_lookup_none {st : SeenState} {id : Int} :
    mapHas st id = false ↔ mapLookup st id = none := by
  unfold mapHas
  cases mapLookup st id <;> simp

/-!
## Strategy and store helper lemmas
-/

theorem pickRandomId_eq_none_iff (ids : List Int) (seen : Int → Bool) (rand : Nat) :
    pickRandomId ids seen rand = none ↔ ∀ id ∈ ids, seen id = true := by
  simp only [pickRandomId]
  by_cases hids : ids.isEmpty
  · simp only [if_pos hids]
    have he : ids = [] := by simpa using hids
    subst he
    simp
  · simp only [if_neg hids]
    by_cases hu : (ids.filter (fun id => !seen id)).isEmpty = true
    · simp only [if_pos hu]
      simp only [List.isEmpty_iff, List.filter_eq_nil_iff] at hu
      constructor
      · intro _ id hm
        simpa using hu id hm
      · intro _
        trivial
    · simp only [if_neg hu]
      constructor
      · intro h
        exfalso
        have hlen : 0 < (ids.filter (fun id => !seen id)).length := by
          cases hf : ids.filter (fun id => !seen id) with
          | nil => rw [hf] at hu; simp at hu
          | cons a t => simp
        have := List.get?_eq_none.mp h
        have := Nat.mod_lt rand hlen
        omega
      · intro hall
        exfalso
        apply hu
        simp only [List.isEmpty_iff, List.filter_eq_nil_iff]
        intro a ha
        simp [hall a ha]

theorem pickRandomId_some_mem {ids : List Int} {seen : Int → Bool} {rand : Nat} {x : Int}
    (h : pickRandomId ids seen rand = some x) : x ∈ ids ∧ seen x = false := by
  simp only [pickRandomId] at h
  by_cases hids : ids.isEmpty
  · rw [if_pos hids] at h
    cases h
  · rw [if_neg hids] at h
    by_cases hu : (ids.filter (fun id => !seen id)).isEmpty = true
    · rw [if_pos hu] at h
      cases h
    · rw [if_neg hu] at h
      have hm : x ∈ ids.filter (fun id => !seen id) := List.get?_mem h
      have hf := List.mem_filter.mp hm
      exact ⟨hf.1, by simpa using hf.2⟩

theorem mapLookup_of_any_eq_false {st : SeenState} {id : Int}
    (h : st.any (fun x => x.appId = id) = false) : mapLookup st id = none := by
  rw [mapLookup_eq_none_iff]
  intro e hm he
  rw [← Bool.not_eq_true, List.any_eq_true] at h
  exact h ⟨e, hm, by simpa using he⟩

theorem mapLookup_mapSet_self (st : SeenState) (id : Int) (e : SeenEntry)
    (he : e.appId = id) : mapLookup (mapSet st id e) id = some e := by
  unfold mapSet
  split
  · rename_i hany
    induction st with
    | nil => simp at hany
    | cons x t ih =>
      simp only [List.map_cons]
      by_cases hx : x.appId = id
      · rw [if_pos hx, mapLookup, List.find?_cons_of_pos _ (by simpa using he)]
      · rw [if_neg hx, mapLookup, List.find?_cons_of_neg _ (by simpa using hx)]
        apply ih
        simpa [List.any_cons, hx] using hany
  · rename_i hany
    rw [mapLookup_append_single,
      mapLookup_of_any_eq_false (Bool.of_not_eq_true hany), if_pos he]

theorem cacheLookup_append_of_none (l₁ l₂ : List (String × Nat)) (a : String)
    (h : cacheLookup l₁ a = none) : cacheLookup (l₁ ++ l₂) a = cacheLookup l₂ a := by
  induction l₁ with
  | nil => rfl
  | cons x t ih =>
    rcases x with ⟨k, v⟩
    rw [cacheLookup] at h
    rw [List.cons_append, cacheLookup]
    by_cases hk : k = a
    · rw [if_pos hk] at h
      cases h
    · rw [if_neg hk] at h ⊢
      exact ih h

/-!
## Claim theorems
-/

/-- **C1 (counterexample)** — The claim says encoding the seen-state
`{(5, Correct, absent), (3, Unknown, absent)}` produces exactly
`"id,outcomeCode,timestamp\n3,?,\n5,1,\n"`.  The code's export of that state
is a different text: the header is `"appId,correct,timestamp"` and the lines
are joined with `"\n"` without a trailing newline. -/
theorem c1_export_scenario_counterexample :
    exportSeenGames [⟨5, some true, none⟩, ⟨3, none, none⟩] ≠
      some "id,outcomeCode,timestamp\n3,?,\n5,1,\n" := by
  decide

/-- **C1 (amended)** — Encoding the seen-state
`{(5, Correct, absent), (3, Unknown, absent)}` produces exactly the text
`"appId,correct,timestamp\n3,?,\n5,1,"`: one header line naming the three
fields (`appId`, `correct`, `timestamp`), then one comma-separated line per
record in ascending identifier order, outcome codes `"1"` for Correct and
`"?"` for Unknown, an empty timestamp field when `seenAt` is absent, and no
trailing newline. -/
theorem c1_export_scenario :
    exportSeenGames [⟨5, some true, none⟩, ⟨3, none, none⟩] =
      some "appId,correct,timestamp\n3,?,\n5,1," := by
  decide

/-- **C4** — Policy A (`pickRandomId`, the uniform strategy used by Pure
Random) never returns an identifier in the seen set, and it returns `none`
(Exhausted) if and only if every identifier of the catalog is seen,
including when the catalog is empty. -/
theorem c4_policyA_set_difference (ids : List Int) (seen : Int → Bool) (rand : Nat) :
    (pickRandomId ids seen rand = none ↔ ∀ id ∈ ids, seen id = true) ∧
    (∀ x : Int, pickRandomId ids seen rand = some x → x ∈ ids ∧ seen x = false) :=
  ⟨pickRandomId_eq_none_iff ids seen rand, fun _ h => pickRandomId_some_mem h⟩

/-- Witness for C4 at the spec's concrete scenario: catalog `[1,2,3]`,
seen-set `{2}`. -/
theorem c4_policyA_set_difference_witness :
    (pickRandomId [1, 2, 3] (fun i => i == 2) 0 = none ↔
      ∀ id ∈ [(1 : Int), 2, 3], (fun i : Int => i == 2) id = true) ∧
    (∀ x : Int, pickRandomId [1, 2, 3] (fun i => i == 2) 0 = some x →
      x ∈ [(1 : Int), 2, 3] ∧ (fun i : Int => i == 2) x = false) :=
  c4_policyA_set_difference [1, 2, 3] (fun i => i == 2) 0

/-- **C8** — Reading the persisted blob: a bare-identifier entry is accepted
and reinterpreted as a record with outcome Unknown (`correct = none`) and
absent timestamp, wherever it occurs in the blob; and empty or unreadable
storage (`blob = none`) yields the empty state without raising. -/
theorem c8_legacy_blob_read :
    getSeenGamesData none = [] ∧
    (∀ (l : List BlobItem) (n : Int),
      getSeenGamesData (some (l ++ [BlobItem.num n])) =
        mapSet (getSeenGamesData (some l)) n ⟨n, none, none⟩) ∧
    (∀ (l : List BlobItem) (n : Int),
      mapLookup (getSeenGamesData (some (l ++ [BlobItem.num n]))) n =
        some ⟨n, none, none⟩) := by
  refine ⟨rfl, ?_, ?_⟩
  · intro l n
    simp only [getSeenGamesData, List.foldl_append]
    rfl
  · intro l n
    have h : getSeenGamesData (some (l ++ [BlobItem.num n])) =
        mapSet (getSeenGamesData (some l)) n ⟨n, none, none⟩ := by
      simp only [getSeenGamesData, List.foldl_append]
      rfl
    rw [h]
    exact mapLookup_mapSet_self _ n _ rfl

/-- **C9** — The partition cache coalesces: starting from any state in which
`path` is uncached, the first call starts exactly one fetch, and a second
call for the same path (arriving while the first is in flight — JavaScript
installs the cache entry synchronously before yielding) performs no further
fetch, changes nothing, and returns the same promise. -/
theorem c9_loadCsvIds_coalesce (s : LoadState) (path : String)
    (h : cacheLookup s.cache path = none) :
    (loadCsvIds (loadCsvIds s path).1 path).2 = (loadCsvIds s path).2 ∧
    (loadCsvIds (loadCsvIds s path).1 path).1 = (loadCsvIds s path).1 ∧
    (loadCsvIds s path).1.fetchCount = s.fetchCount + 1 := by
  have h1 : loadCsvIds s path =
      ({ cache := s.cache ++ [(path, s.nextPromise)],
         nextPromise := s.nextPromise + 1,
         fetchCount := s.fetchCount + 1 }, s.nextPromise) := by
    rw [loadCsvIds, h]
  have h2 : cacheLookup (s.cache ++ [(path, s.nextPromise)]) path =
      some s.nextPromise := by
    rw [cacheLookup_append_of_none _ _ _ h, cacheLookup, if_pos rfl]
  rw [h1]
  rw [loadCsvIds, h2]
  exact ⟨rfl, rfl, rfl⟩

/-- Witness for C9: the empty initial cache and the first batch partition. -/
theorem c9_loadCsvIds_coalesce_witness :
    (loadCsvIds (loadCsvIds ⟨[], 0, 0⟩ "data/Batch_1.csv").1 "data/Batch_1.csv").2 =
      (loadCsvIds ⟨[], 0, 0⟩ "data/Batch_1.csv").2 ∧
    (loadCsvIds (loadCsvIds ⟨[], 0, 0⟩ "data/Batch_1.csv").1 "data/Batch_1.csv").1 =
      (loadCsvIds ⟨[], 0, 0⟩ "data/Batch_1.csv").1 ∧
    (loadCsvIds ⟨[], 0, 0⟩ "data/Batch_1.csv").1.fetchCount = 0 + 1 :=
  c9_loadCsvIds_coalesce ⟨[], 0, 0⟩ "data/Batch_1.csv" rfl

/-- **C10** — A record written by `markGameAsSeen` for any finite identifier
and any outcome argument has a strictly boolean outcome obtained by Boolean
coercion (so a `null`/`undefined`/absent outcome is stored as Incorrect,
`some false`, never as Unknown, `none`) and carries no timestamp; a
non-finite identifier leaves the store untouched. -/
theorem c10_markGameAsSeen_boolean (st : SeenState) (id : Int) (c : Option Bool) :
    mapLookup (markGameAsSeen st (some id) c) id =
      some ⟨id, some (boolCoerce c), none⟩ ∧
    mapLookup (markGameAsSeen st (some id) none) id = some ⟨id, some false, none⟩ ∧
    markGameAsSeen st none c = st :=
  ⟨mapLookup_mapSet_self st id _ rfl, mapLookup_mapSet_self st id _ rfl, rfl⟩

/-!
## Merge and line-processing lemmas (C3, C7)
-/

theorem mergeStep_has {st : SeenState} {r : SeenEntry} (imp skip : Nat)
    (h : mapHas st r.appId = true) :
    mergeStep (st, imp, skip) r = (st, imp, skip + 1) := by
  simp [mergeStep, h]

theorem mergeStep_not_has {st : SeenState} {r : SeenEntry} (imp skip : Nat)
    (h : mapHas st r.appId = false) :
    mergeStep (st, imp, skip) r = (st ++ [r], imp + 1, skip) := by
  simp [mergeStep, h]

theorem mergeFold_preserves (rs : List SeenEntry) :
    ∀ (st : SeenState) (imp skip : Nat) (id : Int), mapHas st id = true →
      mapLookup (rs.foldl mergeStep (st, imp, skip)).1 id = mapLookup st id := by
  induction rs with
  | nil =>
    intro st imp skip id _
    rfl
  | cons r t ih =>
    intro st imp skip id hid
    rw [List.foldl_cons]
    cases hh : mapHas st r.appId with
    | true =>
      rw [mergeStep_has imp skip hh]
      exact ih st imp (skip + 1) id hid
    | false =>
      rw [mergeStep_not_has imp skip hh]
      have hid' : mapHas (st ++ [r]) id = true := by
        rw [mapHas_append_single]
        rw [hid]
        rfl
      rw [ih (st ++ [r]) (imp + 1) skip id hid']
      rw [mapLookup_append_single]
      cases he : mapLookup st id with
      | some x => rfl
      | none =>
        rw [mapHas, he] at hid
        cases hid

theorem mergeFold_counts (rs : List SeenEntry) :
    ∀ (st : SeenState) (imp skip : Nat),
      (rs.foldl mergeStep (st, imp, skip)).2.1 + (rs.foldl mergeStep (st, imp, skip)).2.2 =
        imp + skip + rs.length := by
  induction rs with
  | nil =>
    intro st imp skip
    rfl
  | cons r t ih =>
    intro st imp skip
    rw [List.foldl_cons]
    cases hh : mapHas st r.appId with
    | true =>
      rw [mergeStep_has imp skip hh, ih st imp (skip + 1)]
      simp only [List.length_cons]
      omega
    | false =>
      rw [mergeStep_not_has imp skip hh, ih (st ++ [r]) (imp + 1) skip]
      simp only [List.length_cons]
      omega

theorem mergeFold_inserts (rs : List SeenEntry) :
    ∀ (st : SeenState) (imp skip : Nat) (r : SeenEntry),
      r ∈ rs → mapHas st r.appId = false →
      (∀ r' ∈ rs, r'.appId = r.appId → r' = r) →
      mapLookup (rs.foldl mergeStep (st, imp, skip)).1 r.appId = some r := by
  induction rs with
  | nil =>
    intro st imp skip r hr
    cases hr
  | cons x t ih =>
    intro st imp skip r hr hh huniq
    rcases List.mem_cons.mp hr with hrx | hrt
    · subst hrx
      rw [List.foldl_cons, mergeStep_not_has imp skip hh]
      have hhas : mapHas (st ++ [r]) r.appId = true := by
        rw [mapHas_append_single]
        simp
      rw [mergeFold_preserves t (st ++ [r]) (imp + 1) skip r.appId hhas,
        mapLookup_append_single, mapHas_iff_not_lookup_none.mp hh, if_pos rfl]
    · by_cases hxr : x.appId = r.appId
      · have hx : x = r := huniq x (List.mem_cons_self x t) hxr
        subst hx
        rw [List.foldl_cons, mergeStep_not_has imp skip hh]
        have hhas : mapHas (st ++ [x]) x.appId = true := by
          rw [mapHas_append_single]
          simp
        rw [mergeFold_preserves t (st ++ [x]) (imp + 1) skip x.appId hhas,
          mapLookup_append_single, mapHas_iff_not_lookup_none.mp hh, if_pos rfl]
      · rw [List.foldl_cons]
        cases hhx : mapHas st x.appId with
        | true =>
          rw [mergeStep_has imp skip hhx]
          exact ih st imp (skip + 1) r hrt hh
            (fun r' hm he => huniq r' (List.mem_cons_of_mem x hm) he)
        | false =>
          rw [mergeStep_not_has imp skip hhx]
          have hh' : mapHas (st ++ [x]) r.appId = false := by
            rw [mapHas_append_single, hh]
            simpa using hxr
          exact ih (st ++ [x]) (imp + 1) skip r hrt hh'
            (fun r' hm he => huniq r' (List.mem_cons_of_mem x hm) he)

/-- **C3** — The merge of decoded import records into a store is
additive-only: (a) the record stored under any identifier already present is
completely unchanged by the whole merge; (b) every record is counted exactly
once, as imported or as skipped; (c) a record whose identifier is absent from
the store (and not shadowed by a conflicting duplicate inside the import) is
inserted as-is; (d) each single step leaves the store untouched and counts
the record as skipped when its identifier is present, and appends it as-is
counting it as imported when absent. -/
theorem c3_merge_additive (st : SeenState) (rs : List SeenEntry) :
    (∀ id : Int, mapHas st id = true →
      mapLookup (mergeInto st rs).1 id = mapLookup st id) ∧
    ((mergeInto st rs).2.1 + (mergeInto st rs).2.2 = rs.length) ∧
    (∀ r : SeenEntry, r ∈ rs → mapHas st r.appId = false →
      (∀ r' ∈ rs, r'.appId = r.appId → r' = r) →
      mapLookup (mergeInto st rs).1 r.appId = some r) ∧
    (∀ (st' : SeenState) (imp skip : Nat) (r : SeenEntry),
      (mapHas st' r.appId = true → mergeStep (st', imp, skip) r = (st', imp, skip + 1)) ∧
      (mapHas st' r.appId = false →
        mergeStep (st', imp, skip) r = (st' ++ [r], imp + 1, skip))) := by
  refine ⟨?_, ?_, ?_, ?_⟩
  · intro id h
    exact mergeFold_preserves rs st 0 0 id h
  · simpa using mergeFold_counts rs st 0 0
  · intro r hm hh huniq
    exact mergeFold_inserts rs st 0 0 r hm hh huniq
  · intro st' imp skip r
    exact ⟨mergeStep_has imp skip, mergeStep_not_has imp skip⟩

/-- Witness for C3: a store holding identifier 5, merged with one duplicate
record for 5 (skipped, store unchanged) and one new record for 7 (inserted
as-is). -/
theorem c3_merge_additive_witness :
    mapLookup
        (mergeInto [⟨5, some true, none⟩]
          [⟨5, some false, some 3⟩, ⟨7, none, none⟩]).1 5 =
      mapLookup [⟨5, some true, none⟩] 5 ∧
    mapLookup
        (mergeInto [⟨5, some true, none⟩]
          [⟨5, some false, some 3⟩, ⟨7, none, none⟩]).1 7 =
      some ⟨7, none, none⟩ :=
  ⟨(c3_merge_additive [⟨5, some true, none⟩]
      [⟨5, some false, some 3⟩, ⟨7, none, none⟩]).1 5 (by decide),
   (c3_merge_additive [⟨5, some true, none⟩]
      [⟨5, some false, some 3⟩, ⟨7, none, none⟩]).2.2.1 ⟨7, none, none⟩
      (by decide) (by decide) (by decide)⟩

theorem processLine_eq (st : SeenState) (imp skip : Nat) (l : List Char) :
    processLine (st, imp, skip) l =
      match decodeLine l with
      | none => (st, imp, skip + 1)
      | some r => mergeStep (st, imp, skip) r := by
  have hne : ¬ (splitChar ',' l).length = 0 := by
    intro h
    exact splitChar_ne_nil ',' l (List.length_eq_zero.mp h)
  simp only [processLine, decodeLine, if_neg hne]
  cases hp : jsParseIntL (trimL ((splitChar ',' l).headD [])) with
  | none => rfl
  | some a =>
    dsimp only
    by_cases ha : a ≤ 0
    · rw [if_pos ha, if_pos ha]
    · rw [if_neg ha, if_neg ha]

theorem badLine_iff (l : List Char) :
    badLine l = true ↔
      (jsParseIntL (trimL ((splitChar ',' l).headD [])) = none ∨
       ∃ a : Int, jsParseIntL (trimL ((splitChar ',' l).headD [])) = some a ∧ a ≤ 0) := by
  simp only [badLine, decodeLine]
  cases hp : jsParseIntL (trimL ((splitChar ',' l).headD [])) with
  | none => simp
  | some a =>
    dsimp only
    by_cases ha : a ≤ 0
    · rw [if_pos ha]
      simp [ha]
    · rw [if_neg ha]
      simp [ha]

theorem processLine_bad {l : List Char} (h : badLine l = true)
    (st : SeenState) (imp skip : Nat) :
    processLine (st, imp, skip) l = (st, imp, skip + 1) := by
  rw [processLine_eq]
  unfold badLine at h
  cases hd : decodeLine l with
  | none => rfl
  | some r =>
    rw [hd] at h
    cases h

theorem mergeStep_counter_shift (st : SeenState) (imp skip di ds : Nat) (r : SeenEntry) :
    mergeStep (st, imp + di, skip + ds) r =
      ((mergeStep (st, imp, skip) r).1,
       (mergeStep (st, imp, skip) r).2.1 + di,
       (mergeStep (st, imp, skip) r).2.2 + ds) := by
  cases hh : mapHas st r.appId with
  | true =>
    rw [mergeStep_has (imp + di) (skip + ds) hh, mergeStep_has imp skip hh]
    dsimp only
    simp only [Prod.mk.injEq, true_and, and_true]
    omega
  | false =>
    rw [mergeStep_not_has (imp + di) (skip + ds) hh, mergeStep_not_has imp skip hh]
    dsimp only
    simp only [Prod.mk.injEq, true_and, and_true]
    omega

theorem processLine_counter_shift (l : List Char) (st : SeenState)
    (imp skip di ds : Nat) :
    processLine (st, imp + di, skip + ds) l =
      ((processLine (st, imp, skip) l).1,
       (processLine (st, imp, skip) l).2.1 + di,
       (processLine (st, imp, skip) l).2.2 + ds) := by
  rw [processLine_eq, processLine_eq]
  cases decodeLine l with
  | none =>
    dsimp only
    simp only [Prod.mk.injEq, true_and, and_true]
    omega
  | some r =>
    dsimp only
    rw [mergeStep_counter_shift]

theorem foldl_processLine_counter_shift :
    ∀ (lines : List (List Char)) (st : SeenState) (imp skip di ds : Nat),
      lines.foldl processLine (st, imp + di, skip + ds) =
        ((lines.foldl processLine (st, imp, skip)).1,
         (lines.foldl processLine (st, imp, skip)).2.1 + di,
         (lines.foldl processLine (st, imp, skip)).2.2 + ds)
  | [], st, imp, skip, di, ds => rfl
  | l :: t, st, imp, skip, di, ds => by
    rw [List.foldl_cons, List.foldl_cons, processLine_counter_shift,
      foldl_processLine_counter_shift t (processLine (st, imp, skip) l).1
        (processLine (st, imp, skip) l).2.1 (processLine (st, imp, skip) l).2.2 di ds]

theorem foldl_processLine_filter :
    ∀ (lines : List (List Char)) (st : SeenState) (imp skip : Nat),
      lines.foldl processLine (st, imp, skip) =
        (((lines.filter (fun l => !badLine l)).foldl processLine (st, imp, skip)).1,
         ((lines.filter (fun l => !badLine l)).foldl processLine (st, imp, skip)).2.1,
         ((lines.filter (fun l => !badLine l)).foldl processLine (st, imp, skip)).2.2 +
           (lines.filter badLine).length)
  | [], st, imp, skip => rfl
  | l :: t, st, imp, skip => by
    cases hb : badLine l with
    | true =>
      rw [List.foldl_cons, processLine_bad hb st imp skip]
      have hshift := foldl_processLine_counter_shift t st imp skip 0 1
      rw [Nat.add_zero] at hshift
      rw [hshift, List.filter_cons_of_neg (by simp [hb]),
        List.filter_cons_of_pos (by simp [hb]), foldl_processLine_filter t st imp skip]
      dsimp only
      simp only [List.length_cons, Prod.mk.injEq, true_and, and_true]
      omega
    | false =>
      rw [List.foldl_cons, List.filter_cons_of_pos (by simp [hb]),
        List.filter_cons_of_neg (by simp [hb]), List.foldl_cons,
        foldl_processLine_filter t (processLine (st, imp, skip) l).1
          (processLine (st, imp, skip) l).2.1 (processLine (st, imp, skip) l).2.2]

/-- **C7** — During decode of an import file, every data line is split on
commas, and its first field must `parseInt` to a positive integer or the line
is dropped and counted as skipped: (a) `badLine` holds exactly when the first
comma-separated field parses to `NaN` or to a non-positive value; (b) such a
line leaves the store and the imported count unchanged and increments only
the skipped count; (c) processing any line list equals processing its good
lines only, with the skipped count increased by the number of bad lines — a
bad line never aborts the decode of the remaining lines. -/
theorem c7_bad_first_field_skipped (lines : List (List Char)) (st : SeenState)
    (imp skip : Nat) :
    (∀ l : List Char, badLine l = true ↔
      (jsParseIntL (trimL ((splitChar ',' l).headD [])) = none ∨
       ∃ a : Int, jsParseIntL (trimL ((splitChar ',' l).headD [])) = some a ∧ a ≤ 0)) ∧
    (∀ l : List Char, badLine l = true →
      processLine (st, imp, skip) l = (st, imp, skip + 1)) ∧
    lines.foldl processLine (st, imp, skip) =
      (((lines.filter (fun l => !badLine l)).foldl processLine (st, imp, skip)).1,
       ((lines.filter (fun l => !badLine l)).foldl processLine (st, imp, skip)).2.1,
       ((lines.filter (fun l => !badLine l)).foldl processLine (st, imp, skip)).2.2 +
         (lines.filter badLine).length) :=
  ⟨badLine_iff, fun _ h => processLine_bad h st imp skip,
   foldl_processLine_filter lines st imp skip⟩

/-- Witness for C7: the line `"xyz,1,"` has a non-numeric first field, so it
is dropped with only the skipped count incremented. -/
theorem c7_bad_first_field_skipped_witness :
    processLine ([], 0, 0) "xyz,1,".data = ([], 0, 0 + 1) :=
  (c7_bad_first_field_skipped [] [] 0 0).2.1 "xyz,1,".data (by decide)

/-!
## Smart Random and navigation lemmas (C5, C6)
-/

theorem smartGo_eq_none_iff (load : String → List Int) (seen : Int → Bool)
    (randB : String → Nat) (randP : Nat) :
    ∀ shuffled : List String,
      smartGo load seen randB randP shuffled = none ↔
        (∀ f ∈ shuffled, ∀ id ∈ load f, seen id = true) ∧
        (∀ id ∈ load releasedPath, seen id = true) := by
  intro shuffled
  induction shuffled with
  | nil =>
    rw [smartGo, getPureRandomAppId, pickRandomId_eq_none_iff]
    simp
  | cons f rest ih =>
    rw [smartGo]
    cases hp : pickRandomId (load f) seen (randB f) with
    | some id =>
      simp only []
      constructor
      · intro h
        cases h
      · rintro ⟨hall, _⟩
        have := pickRandomId_some_mem hp
        rw [hall f (List.mem_cons_self f rest) id this.1] at this
        cases this.2
    | none =>
      simp only []
      rw [ih]
      constructor
      · rintro ⟨hrest, hfull⟩
        refine ⟨?_, hfull⟩
        intro g hg
        rcases List.mem_cons.mp hg with hgf | hgr
        · subst hgf
          exact (pickRandomId_eq_none_iff (load g) seen (randB g)).mp hp
        · exact hrest g hgr
      · rintro ⟨hall, hfull⟩
        exact ⟨fun g hg => hall g (List.mem_cons_of_mem f hg), hfull⟩

theorem smartGo_fallback (load : String → List Int) (seen : Int → Bool)
    (randB : String → Nat) (randP : Nat) :
    ∀ shuffled : List String,
      (∀ f ∈ shuffled, ∀ id ∈ load f, seen id = true) →
      smartGo load seen randB randP shuffled =
        getPureRandomAppId load seen randP := by
  intro shuffled
  induction shuffled with
  | nil =>
    intro _
    rfl
  | cons f rest ih =>
    intro hall
    rw [smartGo]
    have hp : pickRandomId (load f) seen (randB f) = none :=
      (pickRandomId_eq_none_iff (load f) seen (randB f)).mpr
        (hall f (List.mem_cons_self f rest))
    rw [hp]
    exact ih (fun g hg => hall g (List.mem_cons_of_mem f hg))

theorem smartGo_first_resolved (load : String → List Int) (seen : Int → Bool)
    (randB : String → Nat) (randP : Nat) :
    ∀ shuffled : List String,
      smartGo load seen randB randP shuffled =
        match shuffled.findSome? (fun f => pickRandomId (load f) seen (randB f)) with
        | some id => some id
        | none => getPureRandomAppId load seen randP := by
  intro shuffled
  induction shuffled with
  | nil => rfl
  | cons f rest ih =>
    rw [smartGo, List.findSome?_cons]
    cases pickRandomId (load f) seen (randB f) with
    | some id => rfl
    | none => exact ih

theorem smartGo_some_mem (load : String → List Int) (seen : Int → Bool)
    (randB : String → Nat) (randP : Nat) :
    ∀ (shuffled : List String) (x : Int),
      smartGo load seen randB randP shuffled = some x →
      ((∃ f ∈ shuffled, x ∈ load f) ∨ x ∈ load releasedPath) ∧ seen x = false := by
  intro shuffled
  induction shuffled with
  | nil =>
    intro x h
    rw [smartGo, getPureRandomAppId] at h
    have := pickRandomId_some_mem h
    exact ⟨Or.inr this.1, this.2⟩
  | cons f rest ih =>
    intro x h
    rw [smartGo] at h
    cases hp : pickRandomId (load f) seen (randB f) with
    | some id =>
      rw [hp] at h
      cases h
      have := pickRandomId_some_mem hp
      exact ⟨Or.inl ⟨f, List.mem_cons_self f rest, this.1⟩, this.2⟩
    | none =>
      rw [hp] at h
      rcases ih x h with ⟨hm, hs⟩
      refine ⟨?_, hs⟩
      rcases hm with ⟨g, hg, hx⟩ | hfull
      · exact Or.inl ⟨g, List.mem_cons_of_mem f hg, hx⟩
      · exact Or.inr hfull

theorem getSmart_eq_smartGo (load : String → List Int) (seen : Int → Bool)
    (randB : String → Nat) (randP : Nat) (shuffled : List String) :
    getSmartRandomAppId load seen randB randP shuffled =
      smartGo load seen randB randP shuffled := by
  rw [getSmartRandomAppId, if_neg (by decide)]

/-- **C5** — Smart Random: (a) the loop returns the first Resolved pick over
the shuffled partition list and otherwise falls back to Pure Random over the
full catalog; (b) under any shuffle (a permutation of `BATCH_FILES`), the
result is Exhausted (`none`) iff every batch partition is individually
exhausted and the full catalog is exhausted too; (c) when all partitions are
exhausted the result is exactly the full-catalog Pure Random step, and if the
full catalog still has an unseen identifier, that fallback resolves one. -/
theorem c5_smart_partitions_fallback (load : String → List Int) (seen : Int → Bool)
    (randB : String → Nat) (randP : Nat) (shuffled : List String)
    (hperm : shuffled.Perm BATCH_FILES) :
    (getSmartRandomAppId load seen randB randP shuffled =
      match shuffled.findSome? (fun f => pickRandomId (load f) seen (randB f)) with
      | some id => some id
      | none => getPureRandomAppId load seen randP) ∧
    (getSmartRandomAppId load seen randB randP shuffled = none ↔
      (∀ f ∈ BATCH_FILES, ∀ id ∈ load f, seen id = true) ∧
      (∀ id ∈ load releasedPath, seen id = true)) ∧
    ((∀ f ∈ BATCH_FILES, ∀ id ∈ load f, seen id = true) →
      getSmartRandomAppId load seen randB randP shuffled =
        getPureRandomAppId load seen randP ∧
      ((∃ id ∈ load releasedPath, seen id = false) →
        ∃ x : Int, getSmartRandomAppId load seen randB randP shuffled = some x ∧
          x ∈ load releasedPath ∧ seen x = false)) := by
  have hEq := getSmart_eq_smartGo load seen randB randP shuffled
  refine ⟨?_, ?_, ?_⟩
  · rw [hEq]
    exact smartGo_first_resolved load seen randB randP shuffled
  · rw [hEq, smartGo_eq_none_iff]
    constructor
    · rintro ⟨hs, hfull⟩
      exact ⟨fun f hf => hs f (hperm.mem_iff.mpr hf), hfull⟩
    · rintro ⟨hs, hfull⟩
      exact ⟨fun f hf => hs f (hperm.mem_iff.mp hf), hfull⟩
  · intro hall
    have hall' : ∀ f ∈ shuffled, ∀ id ∈ load f, seen id = true :=
      fun f hf => hall f (hperm.mem_iff.mp hf)
    have hfb : getSmartRandomAppId load seen randB randP shuffled =
        getPureRandomAppId load seen randP := by
      rw [hEq]
      exact smartGo_fallback load seen randB randP shuffled hall'
    refine ⟨hfb, ?_⟩
    rintro ⟨id, hid, hs⟩
    cases hp : getPureRandomAppId load seen randP with
    | none =>
      exfalso
      rw [getPureRandomAppId, pickRandomId_eq_none_iff] at hp
      rw [hp id hid] at hs
      cases hs
    | some x =>
      have hm := pickRandomId_some_mem hp
      exact ⟨x, by rw [hfb, hp], hm.1, hm.2⟩

/-- **C6** — `navigateToRandomApp` is total: for any mode the identifier
handed to the navigation collaborator is positive (provided the catalog
loader yields only non-negative parsed identifiers), and whenever the
selected strategy yields Exhausted (`none`) the fixed hard-coded fallback 570
is substituted. -/
theorem c6_navigate_total (mode : String) (load : String → List Int)
    (seen : Int → Bool) (randB : String → Nat) (randP : Nat)
    (shuffled : List String)
    (hNN : ∀ f : String, ∀ id ∈ load f, 0 ≤ id) :
    0 < navigateTarget mode load seen randB randP shuffled ∧
    ((if mode = "smart" then getSmartRandomAppId load seen randB randP shuffled
      else getPureRandomAppId load seen randP) = none →
      navigateTarget mode load seen randB randP shuffled = 570) := by
  simp only [navigateTarget]
  cases h : (if mode = "smart" then getSmartRandomAppId load seen randB randP shuffled
      else getPureRandomAppId load seen randP) with
  | none => exact ⟨by norm_num, fun _ => rfl⟩
  | some a =>
    constructor
    · dsimp only
      by_cases ha : a = 0
      · rw [if_pos ha]
        norm_num
      · rw [if_neg ha]
        have hmem : ∃ f : String, a ∈ load f := by
          by_cases hm : mode = "smart"
          · rw [if_pos hm, getSmartRandomAppId] at h
            by_cases hbe : BATCH_FILES.isEmpty = true
            · rw [if_pos hbe, getPureRandomAppId] at h
              exact ⟨releasedPath, (pickRandomId_some_mem h).1⟩
            · rw [if_neg hbe] at h
              rcases (smartGo_some_mem load seen randB randP shuffled a h).1 with
                ⟨f, _, hf⟩ | hfull
              · exact ⟨f, hf⟩
              · exact ⟨releasedPath, hfull⟩
          · rw [if_neg hm, getPureRandomAppId] at h
            exact ⟨releasedPath, (pickRandomId_some_mem h).1⟩
        rcases hmem with ⟨f, hf⟩
        have := hNN f a hf
        omega
    · intro hc
      cases hc

/-- Witness for C6: Pure mode over an empty catalog is exhausted and
navigates to the fallback identifier 570. -/
theorem c6_navigate_total_witness :
    0 < navigateTarget "pure" (fun _ => ([] : List Int)) (fun _ => false)
        (fun _ => 0) 0 [] ∧
    ((if "pure" = "smart" then
        getSmartRandomAppId (fun _ => ([] : List Int)) (fun _ => false)
          (fun _ => 0) 0 []
      else getPureRandomAppId (fun _ => ([] : List Int)) (fun _ => false) 0) = none →
      navigateTarget "pure" (fun _ => ([] : List Int)) (fun _ => false)
          (fun _ => 0) 0 [] = 570) :=
  c6_navigate_total "pure" (fun _ => ([] : List Int)) (fun _ => false)
    (fun _ => 0) 0 [] (fun _ id hid => absurd hid (List.not_mem_nil id))

/-- Witness for C5: all six batch partitions load empty (hence exhausted)
while the full catalog holds the unseen identifier 42, so Smart Random
resolves 42 via the full-catalog fallback. -/
theorem c5_smart_partitions_fallback_witness :
    ∃ x : Int,
      getSmartRandomAppId
          (fun f => if f = releasedPath then [(42 : Int)] else [])
          (fun _ => false) (fun _ => 0) 0 BATCH_FILES = some x ∧
      x ∈ (fun f : String => if f = releasedPath then [(42 : Int)] else [])
            releasedPath ∧
      (fun _ : Int => false) x = false :=
  ((c5_smart_partitions_fallback
      (fun f => if f = releasedPath then [(42 : Int)] else [])
      (fun _ => false) (fun _ => 0) 0 BATCH_FILES (List.Perm.refl _)).2.2
      (by decide)).2 (by decide)

/-!
## Codec round-trip lemmas (C2)
-/

theorem map_eq_self_of_forall {α : Type} {f : α → α} :
    ∀ {l : List α}, (∀ x ∈ l, f x = x) → l.map f = l
  | [], _ => rfl
  | x :: t, h => by
    rw [List.map_cons, h x (List.mem_cons_self x t),
      map_eq_self_of_forall (fun y hy => h y (List.mem_cons_of_mem x hy))]

theorem filter_eq_self_of_forall {α : Type} {p : α → Bool} :
    ∀ {l : List α}, (∀ x ∈ l, p x = true) → l.filter p = l
  | [], _ => rfl
  | x :: t, h => by
    rw [List.filter_cons_of_pos (h x (List.mem_cons_self x t)),
      filter_eq_self_of_forall (fun y hy => h y (List.mem_cons_of_mem x hy))]

theorem comma_not_mem_of_csvSafe {L : List Char}
    (h : ∀ c ∈ L, csvSafe c = true) : ',' ∉ L :=
  fun hm => (ne_comma_of_csvSafe (h ',' hm)) rfl

theorem splitChar_comma_entryLine (e : SeenEntry) :
    splitChar ',' (entryLine e) =
      [intToChars e.appId, correctChars e.correct, tsChars e.timestamp] := by
  rw [entryLine,
    splitChar_sep_cons _ (comma_not_mem_of_csvSafe (fun c hc => csvSafe_intToChars hc)),
    splitChar_sep_cons _ (comma_not_mem_of_csvSafe (fun c hc => csvSafe_correctChars hc)),
    splitChar_no_sep (comma_not_mem_of_csvSafe (fun c hc => csvSafe_tsChars hc))]

theorem trimL_of_csvSafe {L : List Char} (h : ∀ c ∈ L, csvSafe c = true) :
    trimL L = L :=
  trimL_eq_self (fun c hc => not_ws_of_csvSafe (h c hc))

theorem headD_three {α : Type} (x y z d : α) : List.headD [x, y, z] d = x := rfl

theorem getD_three_one {α : Type} (x y z d : α) : List.getD [x, y, z] 1 d = y := rfl

theorem getD_three_two {α : Type} (x y z d : α) : List.getD [x, y, z] 2 d = z := rfl

theorem length_three {α : Type} (x y z : α) : ([x, y, z] : List α).length = 3 := rfl

theorem decodeLine_entryLine (e : SeenEntry) (hpos : 0 < e.appId)
    (hts : e.timestamp ≠ some 0) : decodeLine (entryLine e) = some e := by
  obtain ⟨a, co, ts⟩ := e
  dsimp only at hpos hts
  have hsplit : splitChar ',' (entryLine ⟨a, co, ts⟩) =
      [intToChars a, correctChars co, tsChars ts] := splitChar_comma_entryLine ⟨a, co, ts⟩
  simp only [decodeLine, hsplit, headD_three, getD_three_one, getD_three_two,
    length_three]
  rw [trimL_of_csvSafe (fun c hc => csvSafe_intToChars hc), jsParseIntL_intToChars]
  dsimp only
  rw [if_neg (by omega : ¬ a ≤ 0), if_pos (by norm_num : (1 : Nat) < 3),
    if_pos (by norm_num : (2 : Nat) < 3),
    trimL_of_csvSafe (fun c hc => csvSafe_correctChars hc),
    trimL_of_csvSafe (fun c hc => csvSafe_tsChars hc)]
  refine congrArg some ?_
  simp only [SeenEntry.mk.injEq, true_and]
  refine ⟨?_, ?_⟩
  · rcases co with _ | b
    · simp [correctChars]
    · rcases b with _ | _ <;> simp [correctChars]
  · rcases ts with _ | t
    · simp [tsChars]
    · have htz : ¬ t = 0 := fun h0 => hts (by rw [h0])
      rw [tsChars, if_neg htz,
        if_neg (by simpa using isoChars_ne_nil t), dateParseL_isoChars]

theorem processLine_good (e : SeenEntry) (hpos : 0 < e.appId)
    (hts : e.timestamp ≠ some 0) (st : SeenState) (imp skip : Nat) :
    processLine (st, imp, skip) (entryLine e) = mergeStep (st, imp, skip) e := by
  rw [processLine_eq, decodeLine_entryLine e hpos hts]

theorem fold_entryLines :
    ∀ (l : List SeenEntry) (st : SeenState) (imp skip : Nat),
      (∀ e ∈ l, 0 < e.appId ∧ e.timestamp ≠ some 0) →
      (∀ e ∈ l, mapHas st e.appId = false) →
      ((l.map (fun e => e.appId)).Nodup) →
      (l.map entryLine).foldl processLine (st, imp, skip) =
        (st ++ l, imp + l.length, skip)
  | [], st, imp, skip, _, _, _ => by simp
  | e :: t, st, imp, skip, hgood, habs, hnd => by
    rw [List.map_cons, List.foldl_cons,
      processLine_good e (hgood e (List.mem_cons_self e t)).1
        (hgood e (List.mem_cons_self e t)).2,
      mergeStep_not_has imp skip (habs e (List.mem_cons_self e t))]
    rw [List.map_cons, List.nodup_cons] at hnd
    have habs' : ∀ e' ∈ t, mapHas (st ++ [e]) e'.appId = false := by
      intro e' he'
      rw [mapHas_append_single, habs e' (List.mem_cons_of_mem e he')]
      have : ¬ e.appId = e'.appId :=
        fun hx => hnd.1 (List.mem_map.mpr ⟨e', he', hx.symm⟩)
      simpa using this
    rw [fold_entryLines t (st ++ [e]) (imp + 1) skip
      (fun e' he' => hgood e' (List.mem_cons_of_mem e he')) habs' hnd.2]
    have h1 : (st ++ [e]) ++ t = st ++ e :: t := by
      rw [List.append_assoc, List.singleton_append]
    have h2 : imp + 1 + t.length = imp + (e :: t).length := by
      rw [List.length_cons]
      omega
    rw [h1, h2]

theorem import_lines_of_export (l : List SeenEntry) :
    ((splitChar '\n' (joinSep '\n' (headerChars :: l.map entryLine))).map trimL).filter
        (fun x => !x.isEmpty) = headerChars :: l.map entryLine := by
  have hnl : ∀ p ∈ headerChars :: l.map entryLine, '\n' ∉ p := by
    intro p hp
    rcases List.mem_cons.mp hp with hp | hp
    · subst hp
      decide
    · rcases List.mem_map.mp hp with ⟨e, _, he⟩
      subst he
      intro hm
      have := not_ws_entryLine hm
      rw [show wsChar '\n' = true from rfl] at this
      cases this
  rw [splitChar_joinSep '\n' _ (by simp) hnl]
  rw [map_eq_self_of_forall ?_, filter_eq_self_of_forall ?_]
  · intro x hx
    rcases List.mem_cons.mp hx with hx | hx
    · subst hx
      decide
    · rcases List.mem_map.mp hx with ⟨e, _, he⟩
      subst he
      have := entryLine_ne_nil e
      simp [List.isEmpty_iff, this]
  · intro x hx
    rcases List.mem_cons.mp hx with hx | hx
    · subst hx
      decide
    · rcases List.mem_map.mp hx with ⟨e, _, he⟩
      subst he
      exact trimL_eq_self (fun c hc => not_ws_entryLine hc)

/-- **C2 (amended)** — For every seen-state with unique identifiers, all
identifiers positive, and no record whose timestamp is exactly `0` (the
epoch), decoding the encoded export text and merging the decoded records into
an empty store reproduces the original seen-state exactly: every record is
imported, none is skipped, and every identifier maps to the same record
(same outcome, same timestamp or absence thereof). -/
theorem c2_roundtrip_amended (st : SeenState)
    (hnd : (st.map (fun e => e.appId)).Nodup)
    (hpos : ∀ e ∈ st, 0 < e.appId)
    (hts : ∀ e ∈ st, e.timestamp ≠ some 0)
    (hne : st ≠ []) :
    ∃ text : String, exportSeenGames st = some text ∧
      ∃ st' : SeenState,
        importSeenGames text [] = ImportResult.done st' st.length 0 ∧
        ∀ id : Int, mapLookup st' id = mapLookup st id := by
  have hperm : (List.insertionSort (fun a b => a.appId ≤ b.appId) st).Perm st :=
    List.perm_insertionSort _ st
  set sorted := List.insertionSort (fun a b => a.appId ≤ b.appId) st with hsorted
  have hsne : sorted ≠ [] := by
    intro h
    apply hne
    have hlen := hperm.length_eq
    rw [h] at hlen
    exact List.length_eq_zero.mp hlen.symm
  have hEmpty : sorted.isEmpty = false := by
    cases hq : sorted with
    | nil => exact absurd hq hsne
    | cons a t => rfl
  have hnds : (sorted.map (fun e => e.appId)).Nodup :=
    ((hperm.map (fun e => e.appId)).nodup_iff).mpr hnd
  have hexp : exportSeenGames st =
      some ⟨joinSep '\n' (headerChars :: sorted.map entryLine)⟩ := by
    simp only [exportSeenGames, ← hsorted, hEmpty]
    rfl
  refine ⟨⟨joinSep '\n' (headerChars :: sorted.map entryLine)⟩, hexp, sorted, ?_, ?_⟩
  · have hlines : (((splitChar '\n'
        (joinSep '\n' (headerChars :: sorted.map entryLine))).map trimL).filter
        (fun x => !x.isEmpty)) = headerChars :: sorted.map entryLine :=
      import_lines_of_export sorted
    have hh : hasHeaderLine headerChars = true := by decide
    obtain ⟨s₀, srest, hcons⟩ := List.exists_cons_of_ne_nil hsne
    have hfold := fold_entryLines sorted ([] : SeenState) 0 0
      (fun e he => ⟨hpos e (hperm.subset he), hts e (hperm.subset he)⟩)
      (fun e _ => rfl) hnds
    simp only [importSeenGames]
    try dsimp only
    rw [hlines]
    try dsimp only
    rw [hh]
    rw [if_pos (rfl : (true : Bool) = true)]
    rw [hcons, List.map_cons]
    try dsimp only
    rw [← List.map_cons, ← hcons, hfold]
    rw [List.nil_append]
    have hlen : sorted.length = st.length := hperm.length_eq
    rw [hlen]
    simp
  · intro id
    exact mapLookup_eq_of_perm hperm hnds id

/-- **C2 (counterexample)** — The claim as stated fails: take a seen-state
whose records cover outcomes Correct, Incorrect and Unknown each with and
without a timestamp, where the Correct-with-timestamp record's timestamp is
the epoch value `0`.  The export renders a `0` timestamp as an empty field
(`entry.timestamp` is falsy), so decoding the export and merging it into an
empty store yields a record with an **absent** timestamp for identifier 1 —
the original state is not reproduced. -/
theorem c2_roundtrip_counterexample :
    exportSeenGames
        [⟨1, some true, some 0⟩, ⟨2, some false, some 5⟩, ⟨3, none, some 7⟩,
         ⟨4, some true, none⟩, ⟨5, some false, none⟩, ⟨6, none, none⟩] =
      some "appId,correct,timestamp\n1,1,\n2,0,T5Z\n3,?,T7Z\n4,1,\n5,0,\n6,?," ∧
    importSeenGames
        "appId,correct,timestamp\n1,1,\n2,0,T5Z\n3,?,T7Z\n4,1,\n5,0,\n6,?," [] =
      ImportResult.done
        [⟨1, some true, none⟩, ⟨2, some false, some 5⟩, ⟨3, none, some 7⟩,
         ⟨4, some true, none⟩, ⟨5, some false, none⟩, ⟨6, none, none⟩] 6 0 ∧
    mapLookup
        [⟨1, some true, none⟩, ⟨2, some false, some 5⟩, ⟨3, none, some 7⟩,
         ⟨4, some true, none⟩, ⟨5, some false, none⟩, ⟨6, none, none⟩] 1 ≠
      mapLookup
        [⟨1, some true, some 0⟩, ⟨2, some false, some 5⟩, ⟨3, none, some 7⟩,
         ⟨4, some true, none⟩, ⟨5, some false, none⟩, ⟨6, none, none⟩] 1 := by
  decide

/-- Witness for the amended C2 at a state covering all six
outcome-by-timestamp combinations, with nonzero timestamps. -/
theorem c2_roundtrip_amended_witness :
    ∃ text : String,
      exportSeenGames
        [⟨1, some true, some 4⟩, ⟨2, some false, some 5⟩, ⟨3, none, some 7⟩,
         ⟨4, some true, none⟩, ⟨5, some false, none⟩, ⟨6, none, none⟩] = some text ∧
      ∃ st' : SeenState,
        importSeenGames text [] =
          ImportResult.done st'
            ([⟨1, some true, some 4⟩, ⟨2, some false, some 5⟩, ⟨3, none, some 7⟩,
              ⟨4, some true, none⟩, ⟨5, some false, none⟩,
              ⟨6, none, none⟩] : SeenState).length 0 ∧
        ∀ id : Int,
          mapLookup st' id =
            mapLookup
              [⟨1, some true, some 4⟩, ⟨2, some false, some 5⟩, ⟨3, none, some 7⟩,
               ⟨4, some true, none⟩, ⟨5, some false, none⟩, ⟨6, none, none⟩] id :=
  c2_roundtrip_amended
    [⟨1, some true, some 4⟩, ⟨2, some false, some 5⟩, ⟨3, none, some 7⟩,
     ⟨4, some true, none⟩, ⟨5, some false, none⟩, ⟨6, none, none⟩]
    (by decide) (by decide) (by decide) (by decide)
